import Mathlib

/-!
A verification development for the completion module of the `devenv`
language server (`src/devenv/src/lsp.rs`).

Modelling conventions: Rust strings are lists of characters; the
concurrent maps (`DashMap`) are functions from keys to optional values;
`serde_json::Value` is an inductive type whose objects are association
lists in iteration order; handlers that can panic are `Option`-valued
functions returning `none` exactly where the Rust code would panic.
-/

namespace Devenv

/-- Rust `String` / `&str`, modelled as a list of characters. -/
abbrev Str := List Char

/-- Rust `char::is_whitespace`, restricted to the ASCII whitespace
recognised by `Char.isWhitespace` (the inputs of interest are ASCII). -/
def isWs (c : Char) : Bool := c.isWhitespace

/-- Rust `str::trim`: remove leading and trailing whitespace. -/
def trimStr (s : Str) : Str :=
  ((s.dropWhile isWs).reverse.dropWhile isWs).reverse

/-- Rust `str::split(sep)`: split on a separator character; always returns
at least one (possibly empty) segment. -/
def splitOnChar (sep : Char) : Str → List Str
  | [] => [[]]
  | c :: rest =>
    if c = sep then [] :: splitOnChar sep rest
    else
      match splitOnChar sep rest with
      | [] => [[c]]
      | r :: rs => (c :: r) :: rs

/-- Strip one trailing carriage return from a line, as Rust `str::lines`
does. -/
def stripCr (l : Str) : Str :=
  if l.getLast? = some '\r' then l.dropLast else l

/-- Rust `str::lines`: split on newline, drop the final empty segment
produced by a trailing newline (so the empty string has no lines), and
strip one trailing `\r` per line. -/
def rustLines (s : Str) : List Str :=
  let parts := splitOnChar '\n' s
  let parts := if parts.getLast? = some [] then parts.dropLast else parts
  parts.map stripCr

/-- `Backend::get_path` (lsp.rs lines 49-57): split the line on `.` and
return every segment except the last, each trimmed. -/
def get_path (line : Str) : List Str :=
  let parts := splitOnChar '.' line
  (parts.take (parts.length - 1)).map (fun s => trimStr s)

/-- Word characters of the regex class `\w` (its ASCII fragment; the
claims' inputs are ASCII). -/
def isWordChar (c : Char) : Bool := c.isAlphanum || c = '_'

/-- The partial word extracted at lsp.rs lines 253-258 by matching the
regex `.*\W(.*)` against the line prefix: the greedy `.*\W` consumes up
to the last non-word character of the prefix, so the capture group is
the suffix after that character; when the prefix contains no non-word
character the regex does not match and the code falls back to the empty
string (`.unwrap_or("")`). -/
def currentWord (line_until_cursor : Str) : Str :=
  if line_until_cursor.any (fun c => !isWordChar c) then
    (line_until_cursor.reverse.takeWhile isWordChar).reverse
  else []

/-- `serde_json::Value`; object fields are an association list in
iteration order. -/
inductive Json where
  | null
  | bool (b : Bool)
  | num (n : Int)
  | str (s : Str)
  | arr (elems : List Json)
  | obj (fields : List (Str × Json))

/-- `serde_json::Value::get` with a string key: a value only on objects
carrying the key. -/
def Json.get : Json → Str → Option Json
  | .obj fields, key => (fields.find? (fun kv => kv.1 == key)).map (fun kv => kv.2)
  | _, _ => none

/-- `serde_json::Value::as_str`. -/
def Json.asStr : Json → Option Str
  | .str s => some s
  | _ => none

/-- Whether a value is `Value::Object`. -/
def Json.isObj : Json → Bool
  | .obj _ => true
  | _ => false

/-- The description attached to a child value inside `search_json`
(lsp.rs lines 74-80): present only when the child is an object carrying
a string-valued `"description"` field. -/
def descriptionOf (v : Json) : Option Str :=
  match v with
  | .obj fields => (Json.get (.obj fields) ("description".toList)).bind Json.asStr
  | _ => none

/-- `Backend::search_json` (lsp.rs lines 59-86): descend along the path
key by key (empty result as soon as a key is missing), then list the
fields of the reached object whose key starts with the partial key,
paired with their descriptions; empty result when the reached node is
not an object. -/
def search_json : Json → List Str → Str → List (Str × Option Str)
  | j, [], pk =>
    match j with
    | .obj fields =>
      (fields.filter (fun kv => pk.isPrefixOf kv.1)).map
        (fun kv => (kv.1, descriptionOf kv.2))
    | _ => []
  | j, key :: rest, pk =>
    match j.get key with
    | some value => search_json value rest pk
    | none => []

/-- `lsp_types::Position`: zero-based line and character. -/
structure Position where
  line : Nat
  character : Nat
deriving DecidableEq, Repr

/-- `tree_sitter::Point`: zero-based row and column. -/
structure Point where
  row : Nat
  column : Nat
deriving DecidableEq, Repr

/-- Lexicographic order on points. -/
def Point.lte (p q : Point) : Bool :=
  Nat.blt p.row q.row || (Nat.beq p.row q.row && Nat.ble p.column q.column)

/-- A parsed syntax-tree node.  Modelled from the spec: the tree-sitter
parser is an external black box producing a tree of typed nodes with
line/column spans; each node carries its kind, its literal source text
(the result of `utf8_text` on the source), its span and its children. -/
inductive STree where
  | node (kind : Str) (text : Str) (startPos endPos : Point) (children : List STree)

/-- The kind of a node (`Node::kind`). -/
def STree.kind : STree → Str
  | .node k _ _ _ _ => k

/-- The literal source text of a node (`Node::utf8_text`). -/
def STree.text : STree → Str
  | .node _ t _ _ _ => t

/-- Modelled from the spec: whether a node's span contains a point, as a
closed interval in lexicographic point order. -/
def containsPoint (t : STree) (p : Point) : Bool :=
  match t with
  | .node _ _ s e _ => Point.lte s p && Point.lte p e

mutual

/-- Modelled from the spec: descend towards the smallest node whose span
contains the point, returning the child-index path from the root. -/
def descend (p : Point) : STree → List Nat
  | .node _ _ _ _ cs => descendChildren p cs 0

/-- Find the first child whose span contains the point and recurse into
it; stop at the current node when no child contains the point. -/
def descendChildren (p : Point) : List STree → Nat → List Nat
  | [], _ => []
  | c :: rest, i =>
    if containsPoint c p then i :: descend p c
    else descendChildren p rest (i + 1)

end

/-- Modelled from the spec: tree-sitter's
`Node::descendant_for_point_range(p, p)` — the smallest node whose span
contains the point, `none` when the point lies outside the whole tree
(past the end of all text). -/
def descendant_for_point_range (root : STree) (p : Point) : Option (List Nat) :=
  if containsPoint root p then some (descend p root) else none

/-- Fetch the node at a child-index path from the root. -/
def getNodeAt : List Nat → STree → Option STree
  | [], t => some t
  | i :: rest, .node _ _ _ _ cs =>
    match cs.get? i with
    | some c => getNodeAt rest c
    | none => none

/-- The node-kind string `"attrpath"`. -/
def attrpathKind : Str := "attrpath".toList

/-- The text recorded at one walk position, given as a reversed index
path (innermost index first): the node's literal source text when its
kind is `"attrpath"` (lsp.rs lines 29-33), nothing otherwise. -/
def attrTextAt (root : STree) (rpath : List Nat) : Option Str :=
  match getNodeAt rpath.reverse root with
  | some t => if t.kind = attrpathKind then some t.text else none
  | none => none

/-- One recording step of the `get_scope` walk. -/
def recordAt (root : STree) (rpath : List Nat) : List Str :=
  (attrTextAt root rpath).toList

/-- The walk of `get_scope` (lsp.rs lines 26-42): record the current
node, then move to the previous sibling when one exists, otherwise to
the parent, until the root has been visited.  In the reversed-path
encoding the previous-sibling move decrements the innermost index and
the parent move drops it. -/
def walkScope (root : STree) (rpath : List Nat) : List Str :=
  match rpath with
  | [] => recordAt root []
  | i :: rest =>
    if 0 < i then recordAt root (i :: rest) ++ walkScope root ((i - 1) :: rest)
    else recordAt root (i :: rest) ++ walkScope root rest
termination_by rpath.sum + rpath.length
decreasing_by
  all_goals simp [List.sum_cons, List.length_cons]
  all_goals omega

/-- The sequence of positions visited by the `get_scope` walk, in visit
order (reversed-path encoding). -/
def visitPaths (rpath : List Nat) : List (List Nat) :=
  match rpath with
  | [] => [([] : List Nat)]
  | i :: rest =>
    if 0 < i then (i :: rest) :: visitPaths ((i - 1) :: rest)
    else (i :: rest) :: visitPaths rest
termination_by rpath.sum + rpath.length
decreasing_by
  all_goals simp [List.sum_cons, List.length_cons]
  all_goals omega

/-- `Backend::get_scope` (lsp.rs lines 22-47): walk from the smallest
node containing the cursor point, collecting attrpath texts, and reverse
the collected segments; empty when the point lookup finds no node. -/
def get_scope (root : STree) (cursor_position : Point) : List Str :=
  match descendant_for_point_range root cursor_position with
  | some path => (walkScope root path.reverse).reverse
  | none => []

/-- The `Backend` state (lsp.rs lines 12-19); the `DashMap`s are
modelled as functions to optional values and the `client` handle is
protocol plumbing, omitted. -/
structure Backend where
  document_map : Str → Option Str
  completion_json : Json
  last_cursor_position : Str → Option Position
  current_scope : Str → Option (List Str)

/-- `DashMap::insert`. -/
def update (m : Str → Option α) (k : Str) (v : α) : Str → Option α :=
  fun q => if q = k then some v else m q

/-- `tower_lsp::jsonrpc::Result<Option<α>>`: a protocol result that is
either a successful (possibly absent) response or an error code. -/
inductive LspResult (α : Type) where
  | ok (v : Option α)
  | err (code : Int)
deriving DecidableEq, Repr

/-- `lsp_types::CompletionItem`, restricted to the two fields set by
`CompletionItem::new_simple(label, detail)`. -/
structure CompletionItem where
  label : Str
  detail : Str
deriving DecidableEq, Repr

/-- `lsp_types::CompletionResponse::List(CompletionList)`. -/
inductive CompletionResponse where
  | list (is_incomplete : Bool) (items : List CompletionItem)
deriving DecidableEq, Repr

/-- Lines 240-241 of the completion handler: fetch the line at the
cursor (`unwrap_or_default` for a missing line) and slice it up to the
cursor column; Rust's `&line_content[..character]` panics (`none` here)
when the column exceeds the line length. -/
def lineUntilCursor (file_content : Str) (position : Position) : Option Str :=
  let line_content := ((rustLines file_content).get? position.line).getD []
  if position.character ≤ line_content.length then
    some (line_content.take position.character)
  else none

/-- The `completion` handler (lsp.rs lines 221-292) as a state
transformer: document text defaults to empty for an unknown uri, the
line prefix is sliced (panic modelled as `none`), the cursor position is
cached, the dotted path and partial word are extracted from the prefix,
the cached scope is prepended and the schema is queried; the handler
always returns `Ok(Some(CompletionResponse::List ..))` with
`is_incomplete = false`. -/
def completion (b : Backend) (uri : Str) (position : Position) :
    Option (LspResult CompletionResponse × Backend) :=
  let file_content := (b.document_map uri).getD []
  match lineUntilCursor file_content position with
  | none => none
  | some line_until_cursor =>
    let b1 : Backend :=
      { b with last_cursor_position := update b.last_cursor_position uri position }
    let current_word := currentWord line_until_cursor
    let dot_path := get_path line_until_cursor
    let current_scope := (b.current_scope uri).getD []
    let search_path := current_scope ++ dot_path
    let completions := search_json b.completion_json search_path current_word
    let completion_items := completions.map
      (fun c => CompletionItem.mk c.1 (c.2.getD []))
    some (LspResult.ok (some (CompletionResponse.list false completion_items)), b1)

/-- The `did_change` handler (lsp.rs lines 171-205), parametrised by the
external tree-sitter parser: read the cached cursor position (origin
default), read the full new text from the first content change (Rust's
`params.content_changes[0]` panics — `none` here — when the list is
empty), store the text, re-parse it, and store the recomputed scope. -/
def did_change (parse : Str → STree) (b : Backend) (uri : Str)
    (content_changes : List Str) : Option Backend :=
  let position := (b.last_cursor_position uri).getD ⟨0, 0⟩
  match content_changes.get? 0 with
  | none => none
  | some file_content =>
    let b1 : Backend :=
      { b with document_map := update b.document_map uri file_content }
    let root := parse file_content
    let point : Point := ⟨position.line, position.character⟩
    let scope_path := get_scope root point
    some { b1 with current_scope := update b1.current_scope uri scope_path }

/-! ## Helper lemmas -/

theorem head?_dropWhile_not (p : α → Bool) (l : List α) (a : α)
    (h : (l.dropWhile p).head? = some a) : p a = false := by
  induction l with
  | nil => simp at h
  | cons b t ih =>
    rw [List.dropWhile_cons] at h
    by_cases hb : p b
    · simp [hb] at h
      exact ih h
    · simp [hb] at h
      subst h
      simpa using hb

theorem getLast?_dropWhile_mono (p : α → Bool) (l : List α) (a : α)
    (h : (l.dropWhile p).getLast? = some a) : l.getLast? = some a := by
  induction l with
  | nil => simp at h
  | cons b t ih =>
    rw [List.dropWhile_cons] at h
    by_cases hb : p b
    · simp [hb] at h
      have ht := ih h
      cases t with
      | nil => simp at ht
      | cons c u => rw [List.getLast?_cons_cons]; exact ht
    · simp [hb] at h
      exact h

/-! ## Claims about the path parser and the partial word -/

/-- Claim C6: the path parser splits the line prefix on `.` and returns
all segments except the last, each trimmed, as the dotted path; on
`"foo.bar.ba"` the dotted path is `["foo", "bar"]` and the partial word
is `"ba"`. -/
theorem get_path_split_spec :
    (∀ line : Str,
        get_path line = ((splitOnChar '.' line).dropLast).map (fun s => trimStr s))
    ∧ get_path ("foo.bar.ba".toList) = ["foo".toList, "bar".toList]
    ∧ currentWord ("foo.bar.ba".toList) = "ba".toList := by
  refine ⟨fun line => ?_, by decide, by decide⟩
  simp [get_path, List.dropLast_eq_take]

/-- Claim C2 (counterexample): on the boundary-free input `"x"` the
partial word extracted by the handler's regex is the empty string, not
the entire prefix `"x"`. -/
theorem currentWord_single_letter_cex :
    ¬ currentWord ("x".toList) = "x".toList := by decide

/-- Claim C2 (amended): on a line prefix with no word-boundary character
the regex `.*\W(.*)` does not match and the partial word defaults to the
empty string; in particular on `"x"` the dotted path is `[]` and the
partial word is `""`, and the empty prefix also yields an empty partial
word. -/
theorem currentWord_no_boundary_empty :
    (∀ s : Str, (∀ c ∈ s, isWordChar c = true) → currentWord s = [])
    ∧ get_path ("x".toList) = []
    ∧ currentWord ("x".toList) = []
    ∧ currentWord [] = [] := by
  refine ⟨fun s h => ?_, by decide, by decide, by decide⟩
  have hfalse : ¬ (s.any (fun c => !isWordChar c) = true) := by
    rw [List.any_eq_true]
    rintro ⟨x, hx, hpx⟩
    rw [h x hx] at hpx
    simp at hpx
  rw [currentWord, if_neg hfalse]

theorem currentWord_no_boundary_empty_witness :
    (∀ c ∈ ("x".toList : Str), isWordChar c = true) ∧ currentWord ("x".toList) = [] :=
  ⟨by decide, currentWord_no_boundary_empty.1 ("x".toList) (by decide)⟩

/-- Claim C4 (counterexample): the dotted path parsed from the line
prefix `".x"` is `[""]`, which contains an empty segment, so dotted-path
segments are not always non-empty. -/
theorem get_path_empty_segment_cex :
    ¬ (∀ s ∈ get_path (".x".toList), s ≠ ([] : Str)) := by decide

/-- Claim C4 (amended): every segment of the dotted path produced by the
path parser is trimmed — it has no leading and no trailing whitespace —
but segments may be empty (a leading or doubled dot yields an empty
segment); the cached scope-path segments are literal attrpath source
texts, on which the code itself imposes no constraint. -/
theorem get_path_segments_trimmed :
    ∀ (line : Str) (s : Str), s ∈ get_path line →
      (∀ c, s.head? = some c → isWs c = false) ∧
      (∀ c, s.getLast? = some c → isWs c = false) := by
  intro line s hs
  simp only [get_path, List.mem_map] at hs
  obtain ⟨w, hw, rfl⟩ := hs
  constructor
  · intro c hc
    rw [trimStr, List.head?_reverse] at hc
    have h2 := getLast?_dropWhile_mono _ _ _ hc
    rw [List.getLast?_reverse] at h2
    exact head?_dropWhile_not _ _ _ h2
  · intro c hc
    rw [trimStr, List.getLast?_reverse] at hc
    exact head?_dropWhile_not _ _ _ hc

theorem get_path_segments_trimmed_witness :
    ("foo".toList ∈ get_path ("foo.ba".toList)) ∧
      ((∀ c, ("foo".toList : Str).head? = some c → isWs c = false) ∧
       (∀ c, ("foo".toList : Str).getLast? = some c → isWs c = false)) :=
  ⟨by decide, get_path_segments_trimmed ("foo.ba".toList) ("foo".toList) (by decide)⟩

/-! ## Claims about the schema query -/

/-- Claim C5: the schema query descends from the root child-by-child by
exact segment key; a missing segment, or reaching a non-mapping node,
yields the empty candidate set; otherwise the result is exactly the
children whose key starts with the partial word, each paired with the
child's description when the child is a mapping carrying one; with path
`[]` and partial word `""` every top-level key is returned. -/
theorem search_json_spec :
    (∀ (j : Json) (key : Str) (rest : List Str) (pk : Str),
        Json.get j key = none → search_json j (key :: rest) pk = [])
    ∧ (∀ (j v : Json) (key : Str) (rest : List Str) (pk : Str),
        Json.get j key = some v →
          search_json j (key :: rest) pk = search_json v rest pk)
    ∧ (∀ (j : Json) (pk : Str), Json.isObj j = false → search_json j [] pk = [])
    ∧ (∀ (fields : List (Str × Json)) (pk : Str),
        search_json (Json.obj fields) [] pk =
          (fields.filter (fun kv => pk.isPrefixOf kv.1)).map
            (fun kv => (kv.1, descriptionOf kv.2)))
    ∧ (∀ fields : List (Str × Json),
        search_json (Json.obj fields) [] [] =
          fields.map (fun kv => (kv.1, descriptionOf kv.2))) := by
  refine ⟨?_, ?_, ?_, ?_, ?_⟩
  · intro j key rest pk h
    simp [search_json, h]
  · intro j v key rest pk h
    simp [search_json, h]
  · intro j pk h
    cases j <;> simp_all [search_json, Json.isObj]
  · intro fields pk
    rfl
  · intro fields
    show (fields.filter (fun kv => ([] : Str).isPrefixOf kv.1)).map
        (fun kv => (kv.1, descriptionOf kv.2)) =
      fields.map (fun kv => (kv.1, descriptionOf kv.2))
    congr 1
    rw [List.filter_eq_self]
    intro a _
    simp [List.isPrefixOf]

theorem search_json_spec_witness :
    (Json.get (Json.obj [("a".toList, Json.null)]) ("b".toList) = none ∧
      search_json (Json.obj [("a".toList, Json.null)]) ["b".toList] [] = []) ∧
    (Json.get (Json.obj [("a".toList, Json.null)]) ("a".toList) = some Json.null ∧
      search_json (Json.obj [("a".toList, Json.null)]) ["a".toList] [] =
        search_json Json.null [] []) ∧
    (Json.isObj Json.null = false ∧ search_json Json.null [] [] = []) :=
  ⟨⟨rfl, search_json_spec.1 _ _ [] [] rfl⟩,
   ⟨rfl, search_json_spec.2.1 _ Json.null _ [] [] rfl⟩,
   ⟨rfl, search_json_spec.2.2.1 Json.null [] rfl⟩⟩

/-! ## Claims about the scope resolver -/

theorem visitPaths_ne_nil (rpath : List Nat) : visitPaths rpath ≠ [] := by
  unfold visitPaths
  cases rpath with
  | nil => simp
  | cons i rest =>
    dsimp only
    split <;> simp

theorem visitPaths_head (rpath : List Nat) : (visitPaths rpath).head? = some rpath := by
  unfold visitPaths
  cases rpath with
  | nil => rfl
  | cons i rest =>
    dsimp only
    split <;> rfl

theorem visitPaths_getLast (rpath : List Nat) :
    (visitPaths rpath).getLast? = some ([] : List Nat) := by
  induction rpath using visitPaths.induct with
  | case1 => rw [visitPaths.eq_def]; rfl
  | case2 i rest h ih =>
    rw [visitPaths.eq_def]
    dsimp only
    rw [if_pos h]
    cases h2 : visitPaths ((i - 1) :: rest) with
    | nil => exact absurd h2 (visitPaths_ne_nil _)
    | cons b l =>
      rw [List.getLast?_cons_cons]
      rw [h2] at ih
      exact ih
  | case3 i rest h ih =>
    rw [visitPaths.eq_def]
    dsimp only
    rw [if_neg h]
    cases h2 : visitPaths rest with
    | nil => exact absurd h2 (visitPaths_ne_nil _)
    | cons b l =>
      rw [List.getLast?_cons_cons]
      rw [h2] at ih
      exact ih

theorem walkScope_eq_filterMap (root : STree) (rpath : List Nat) :
    walkScope root rpath = (visitPaths rpath).filterMap (attrTextAt root) := by
  induction rpath using visitPaths.induct with
  | case1 =>
    rw [walkScope.eq_def, visitPaths.eq_def]
    dsimp only
    rw [List.filterMap_cons]
    cases h : attrTextAt root [] <;> simp [recordAt, h]
  | case2 i rest h ih =>
    rw [walkScope.eq_def, visitPaths.eq_def]
    dsimp only
    rw [if_pos h, if_pos h, List.filterMap_cons, ih]
    cases h2 : attrTextAt root (i :: rest) <;> simp [recordAt, h2]
  | case3 i rest h ih =>
    rw [walkScope.eq_def, visitPaths.eq_def]
    dsimp only
    rw [if_neg h, if_neg h, List.filterMap_cons, ih]
    cases h2 : attrTextAt root (i :: rest) <;> simp [recordAt, h2]

/-- Claim C7: the scope resolver walks from the node located for the
point by previous-sibling-else-parent moves up to the root, visiting the
start node first and the root last, records the literal source text of
every visited node of kind `"attrpath"`, and reverses the records into
outermost-first order; when the point lookup yields no node the result
is the empty path. -/
theorem get_scope_spec :
    (∀ (root : STree) (p : Point),
        containsPoint root p = false → get_scope root p = [])
    ∧ (∀ (root : STree) (rpath : List Nat),
        walkScope root rpath = (visitPaths rpath).filterMap (attrTextAt root))
    ∧ (∀ rpath : List Nat,
        (visitPaths rpath).head? = some rpath ∧
        (visitPaths rpath).getLast? = some ([] : List Nat))
    ∧ (∀ (root : STree) (p : Point) (path : List Nat),
        descendant_for_point_range root p = some path →
        get_scope root p =
          ((visitPaths path.reverse).filterMap (attrTextAt root)).reverse) := by
  refine ⟨?_, walkScope_eq_filterMap,
    fun rpath => ⟨visitPaths_head rpath, visitPaths_getLast rpath⟩, ?_⟩
  · intro root p h
    simp [get_scope, descendant_for_point_range, h]
  · intro root p path h
    simp [get_scope, h, walkScope_eq_filterMap]

/-- A sample parsed document `a.b = 1` with an attrpath node and an
expression node as children of the root. -/
def sampleTree : STree :=
  STree.node ("source".toList) ("a.b = 1".toList) ⟨0, 0⟩ ⟨0, 7⟩
    [STree.node attrpathKind ("a.b".toList) ⟨0, 0⟩ ⟨0, 3⟩ [],
     STree.node ("expr".toList) ("1".toList) ⟨0, 6⟩ ⟨0, 7⟩ []]

theorem get_scope_spec_witness :
    (containsPoint sampleTree ⟨5, 0⟩ = false ∧ get_scope sampleTree ⟨5, 0⟩ = []) ∧
    (descendant_for_point_range sampleTree ⟨0, 6⟩ = some [1] ∧
      get_scope sampleTree ⟨0, 6⟩ =
        ((visitPaths ([1] : List Nat).reverse).filterMap (attrTextAt sampleTree)).reverse) :=
  ⟨⟨rfl, get_scope_spec.1 sampleTree ⟨5, 0⟩ rfl⟩,
   ⟨rfl, get_scope_spec.2.2.2 sampleTree ⟨0, 6⟩ [1] rfl⟩⟩

/-! ## Claims about the handlers -/

/-- A backend with no stored documents and a one-key schema. -/
def B3 : Backend :=
  { document_map := fun _ => none
    completion_json := Json.obj [("a".toList, Json.null)]
    last_cursor_position := fun _ => none
    current_scope := fun _ => none }

/-- A uri under which a two-character document `"ab"` is stored. -/
def abUri : Str := "file:a".toList

/-- A backend storing the single-line document `"ab"` under `abUri`. -/
def Bab : Backend :=
  { document_map := fun q => if q = abUri then some ("ab".toList) else none
    completion_json := Json.obj []
    last_cursor_position := fun _ => none
    current_scope := fun _ => none }

/-- Claim C1 (code bug): with the two-character line `"ab"` stored and a
completion request at column 5, the line-prefix extraction
`&line_content[..character]` is out of bounds and the handler panics
(modelled as `none`) instead of clamping the slice to the line length. -/
theorem completion_cursor_past_line_end_panics :
    lineUntilCursor ("ab".toList) ⟨0, 5⟩ = none ∧
    completion Bab abUri ⟨0, 5⟩ = none :=
  ⟨rfl, rfl⟩

/-- Claim C3 (counterexample): for a never-stored uri and cursor
position `(0, 0)`, with schema `{"a": null}`, the handler returns the
candidate `"a"` — every top-level schema key — not an empty candidate
list. -/
theorem completion_unknown_doc_cex :
    (completion B3 ['u'] ⟨0, 0⟩).map (fun r => r.1) =
      some (LspResult.ok (some (CompletionResponse.list false
        [CompletionItem.mk ("a".toList) []]))) ∧
    [CompletionItem.mk ("a".toList) []] ≠ ([] : List CompletionItem) :=
  ⟨rfl, by decide⟩

/-- Claim C3 (amended): for a never-stored uri the handler treats the
document text as empty and the scope path as empty; at cursor column 0
it queries the schema with the empty path and empty partial word and
returns every top-level schema key (an empty list only when the schema
root has none); at any cursor column greater than 0 the line-prefix
slice of the empty line is out of bounds and the handler fails. -/
theorem completion_unknown_doc_behavior :
    ∀ (b : Backend) (uri : Str) (p : Position),
      b.document_map uri = none → b.current_scope uri = none →
      (p.character = 0 →
        (completion b uri p).map (fun r => r.1) =
          some (LspResult.ok (some (CompletionResponse.list false
            ((search_json b.completion_json [] []).map
              (fun c => CompletionItem.mk c.1 (c.2.getD []))))))) ∧
      (0 < p.character → completion b uri p = none) := by
  intro b uri p hdoc hscope
  obtain ⟨pl, pc⟩ := p
  constructor
  · intro hc
    replace hc : pc = 0 := hc
    subst hc
    simp [completion, hdoc, hscope, lineUntilCursor, rustLines, splitOnChar,
      stripCr, get_path, currentWord, trimStr]
  · intro hc
    replace hc : 0 < pc := hc
    have hnone : lineUntilCursor ([] : Str) ⟨pl, pc⟩ = none := by
      simp [lineUntilCursor, rustLines, splitOnChar, stripCr]
      omega
    simp [completion, hdoc, hnone]

theorem completion_unknown_doc_behavior_witness :
    (B3.document_map ['u'] = none ∧ B3.current_scope ['u'] = none) ∧
    ((completion B3 ['u'] ⟨0, 0⟩).map (fun r => r.1) =
        some (LspResult.ok (some (CompletionResponse.list false
          ((search_json B3.completion_json [] []).map
            (fun c => CompletionItem.mk c.1 (c.2.getD [])))))) ∧
      completion B3 ['u'] ⟨0, 1⟩ = none) :=
  ⟨⟨rfl, rfl⟩,
   ⟨(completion_unknown_doc_behavior B3 ['u'] ⟨0, 0⟩ rfl rfl).1 rfl,
    (completion_unknown_doc_behavior B3 ['u'] ⟨0, 1⟩ rfl rfl).2 (by decide)⟩⟩

theorem update_update (m : Str → Option α) (k : Str) (v : α) :
    update (update m k v) k v = update m k v := by
  funext q
  by_cases h : q = k <;> simp [update, h]

/-- Claim C8: issuing the same completion request twice with no
intervening change yields the identical response and leaves the state
unchanged — the first request's only mutation, caching the cursor
position, does not affect the second request's result. -/
theorem completion_idempotent :
    ∀ (b : Backend) (uri : Str) (p : Position)
      (r : LspResult CompletionResponse) (b' : Backend),
      completion b uri p = some (r, b') → completion b' uri p = some (r, b') := by
  intro b uri p r b' h
  simp only [completion] at h
  rcases hl : lineUntilCursor ((b.document_map uri).getD []) p with _ | lc
  · rw [hl] at h
    simp at h
  · rw [hl] at h
    simp only [Option.some.injEq, Prod.mk.injEq] at h
    obtain ⟨hr, hb'⟩ := h
    subst hb'
    simp only [completion]
    rw [hl]
    simp only [Option.some.injEq, Prod.mk.injEq]
    exact ⟨hr, by rw [update_update]⟩

theorem completion_idempotent_witness :
    completion
        { B3 with last_cursor_position := update B3.last_cursor_position ['u'] ⟨0, 0⟩ }
        ['u'] ⟨0, 0⟩ =
      some (LspResult.ok (some (CompletionResponse.list false
          [CompletionItem.mk ("a".toList) []])),
        { B3 with last_cursor_position := update B3.last_cursor_position ['u'] ⟨0, 0⟩ }) :=
  completion_idempotent B3 ['u'] ⟨0, 0⟩ _ _ rfl

/-- Claim C9: the change handler fails (`none`, modelling the panic of
`content_changes[0]`) exactly on an empty content-changes list; on a
non-empty list the access is in bounds and the first element is stored
as the document's full new text. -/
theorem did_change_spec :
    ∀ (parse : Str → STree) (b : Backend) (uri : Str) (changes : List Str),
      (changes = [] → did_change parse b uri changes = none) ∧
      (∀ t rest, changes = t :: rest →
        ∃ b', did_change parse b uri changes = some b' ∧
          b'.document_map uri = some t) := by
  intro parse b uri changes
  constructor
  · rintro rfl
    rfl
  · rintro t rest rfl
    refine ⟨_, rfl, ?_⟩
    simp [did_change, update]

/-- A trivial parse result used to exercise `did_change`. -/
def leafTree : STree := STree.node [] [] ⟨0, 0⟩ ⟨0, 0⟩ []

theorem did_change_spec_witness :
    did_change (fun _ => leafTree) B3 ['u'] [] = none ∧
    ∃ b', did_change (fun _ => leafTree) B3 ['u'] ["hi".toList] = some b' ∧
      b'.document_map ['u'] = some ("hi".toList) :=
  ⟨(did_change_spec (fun _ => leafTree) B3 ['u'] []).1 rfl,
   (did_change_spec (fun _ => leafTree) B3 ['u'] ["hi".toList]).2 ("hi".toList) [] rfl⟩

/-- Claim C10: whenever the completion handler completes it returns a
successful `Ok(Some(..))` response — never a protocol error and never an
absent response — carrying a completion list with `is_incomplete =
false` whose items are exactly the query's candidates rendered with the
key name as label and the description (or the empty string) as
detail. -/
theorem completion_response_shape :
    ∀ (b : Backend) (uri : Str) (p : Position)
      (res : LspResult CompletionResponse) (b' : Backend),
      completion b uri p = some (res, b') →
      ∃ lc, lineUntilCursor ((b.document_map uri).getD []) p = some lc ∧
        res = LspResult.ok (some (CompletionResponse.list false
          ((search_json b.completion_json
              (((b.current_scope uri).getD []) ++ get_path lc) (currentWord lc)).map
            (fun c => CompletionItem.mk c.1 (c.2.getD []))))) := by
  intro b uri p res b' h
  simp only [completion] at h
  rcases hl : lineUntilCursor ((b.document_map uri).getD []) p with _ | lc
  · rw [hl] at h
    simp at h
  · rw [hl] at h
    simp only [Option.some.injEq, Prod.mk.injEq] at h
    exact ⟨lc, rfl, h.1.symm⟩

theorem completion_response_shape_witness :
    ∃ lc, lineUntilCursor ((B3.document_map ['u']).getD []) ⟨0, 0⟩ = some lc ∧
      LspResult.ok (some (CompletionResponse.list false
          [CompletionItem.mk ("a".toList) []])) =
        LspResult.ok (some (CompletionResponse.list false
          ((search_json B3.completion_json
              (((B3.current_scope ['u']).getD []) ++ get_path lc) (currentWord lc)).map
            (fun c => CompletionItem.mk c.1 (c.2.getD []))))) :=
  completion_response_shape B3 ['u'] ⟨0, 0⟩ _ _ rfl

end Devenv
